import Mathlib

/-!
Verification development for the S3 file connector's filesystem adapter
(`s3-file-connector/src/fs.rs`) over a shallow embedding of its state and
operations.

Strings from the Rust code are modelled as lists of characters (`Str`), and
the `HashMap`s as association lists with replace-on-insert semantics
(`insertA` / `lookupA`), which matches `HashMap` observational behaviour for
the `get`/`insert`/`contains_key` operations that the code performs (the code
never iterates a `HashMap`).  Machine integers (`u64`, `usize`, `i64` offsets
delivered by the kernel, which are non-negative in every operation modelled
here) are modelled as `Nat`; none of the modelled code paths can overflow a
`u64` counter in a real session, and the code itself performs no wrapping
arithmetic.  The external object-store client is not part of the state: the
outcome of the single listing call that `opendir` performs is passed to the
embedded `opendir` as an explicit argument, and the byte store backing reads
is passed to `read` as a function argument.  The unbounded parent-walking
loop of `path_from_root` is embedded with an explicit fuel argument.
-/

/-- Rust `String` / `str`, modelled as a list of characters. -/
abbrev Str := List Char

/-- Association-list lookup, the model of `HashMap::get`. -/
def lookupA {β : Type} : List (Nat × β) → Nat → Option β
  | [], _ => none
  | (k, v) :: rest, a => if a = k then some v else lookupA rest a

/-- Association-list lookup with string keys, the model of `HashMap::get`. -/
def lookupS {β : Type} : List (Str × β) → Str → Option β
  | [], _ => none
  | (k, v) :: rest, a => if a = k then some v else lookupS rest a

/-- Remove a key, helper for replace-on-insert. -/
def eraseA {β : Type} (k : Nat) : List (Nat × β) → List (Nat × β)
  | [] => []
  | (k', v) :: rest => if k' = k then eraseA k rest else (k', v) :: eraseA k rest

/-- Remove a string key, helper for replace-on-insert. -/
def eraseS {β : Type} (k : Str) : List (Str × β) → List (Str × β)
  | [] => []
  | (k', v) :: rest => if k' = k then eraseS k rest else (k', v) :: eraseS k rest

/-- Association-list insert, the model of `HashMap::insert`. -/
def insertA {β : Type} (k : Nat) (v : β) (m : List (Nat × β)) : List (Nat × β) :=
  (k, v) :: eraseA k m

/-- Association-list insert with string keys, the model of `HashMap::insert`. -/
def insertS {β : Type} (k : Str) (v : β) (m : List (Str × β)) : List (Str × β) :=
  (k, v) :: eraseS k m

/-- `const ROOT_INODE: Inode = 1u64` (fs.rs:17). -/
def ROOT_INODE : Nat := 1

/-- `const DIR_PERMISSIONS: u16 = 0o755` (fs.rs:18). -/
def DIR_PERMISSIONS : Nat := 0o755

/-- `const FILE_PERMISSIONS: u16 = 0o644` (fs.rs:19). -/
def FILE_PERMISSIONS : Nat := 0o644

/-- `const UID: u32 = 501` (fs.rs:20). -/
def UID : Nat := 501

/-- `const GID: u32 = 20` (fs.rs:21). -/
def GID : Nat := 20

/-- `const FILE_INODE: u64 = 2` (fs.rs:23). -/
def FILE_INODE : Nat := 2

/-- `const BLOCK_SIZE: u64 = 4096` (fs.rs:66). -/
def BLOCK_SIZE : Nat := 4096

/-- `UNIX_EPOCH`; times are modelled as seconds since the epoch. -/
def UNIX_EPOCH : Nat := 0

/-- `fuser::FileType`, restricted to the two variants the code creates. -/
inductive FileType where
  | regularFile
  | directory
deriving DecidableEq

/-- `struct InodeInfo` (fs.rs:45-52). -/
structure InodeInfo where
  name : Str
  parent : Nat
  mtime : Nat
  kind : FileType
  size : Nat
deriving DecidableEq

/-- `struct DirHandle` (fs.rs:68-71). -/
structure DirHandle where
  children : List Nat
deriving DecidableEq

/-- `fuser::FileAttr`, the attribute record built by `make_attr`. -/
structure FileAttr where
  ino : Nat
  size : Nat
  blocks : Nat
  atime : Nat
  mtime : Nat
  ctime : Nat
  crtime : Nat
  kind : FileType
  perm : Nat
  nlink : Nat
  uid : Nat
  gid : Nat
  rdev : Nat
  flags : Nat
  blksize : Nat
deriving DecidableEq

/-- `const ROOT_DIR_ATTR: FileAttr` (fs.rs:27-43). -/
def ROOT_DIR_ATTR : FileAttr :=
  { ino := ROOT_INODE, size := 0, blocks := 0, atime := UNIX_EPOCH, mtime := UNIX_EPOCH,
    ctime := UNIX_EPOCH, crtime := UNIX_EPOCH, kind := FileType.directory,
    perm := DIR_PERMISSIONS, nlink := 2, uid := UID, gid := GID, rdev := 0, flags := 0,
    blksize := 512 }

/-- Modelled from the spec: `s3_client::StreamingGetObject` is not under `src/`;
per spec section 4.3 a read session is bound to the object's (bucket, key, size)
tuple at creation. -/
structure StreamingGetObject where
  bucket : Str
  key : Str
  size : Nat
deriving DecidableEq

/-- Modelled from the spec: a read session turns the remote object's contents
into an offset-addressable byte supply; `read(offset, length)` returns the bytes
of the bound object in that range, bounded by the bound size, possibly fewer
than requested near end-of-object (spec sections 4.3 and the glossary).  The
object store itself is the function argument `store` from (bucket, key) to the
object's bytes. -/
def StreamingGetObject.readBytes (store : Str → Str → List Nat) (s : StreamingGetObject)
    (offset len : Nat) : List Nat :=
  (((store s.bucket s.key).take s.size).drop offset).take len

/-- Modelled from the spec: one element of `ListObjectsV2Result.objects` as
consumed by fs.rs:290-298 (the `s3_client` crate is not under `src/`): a child
carries either a non-empty object `key` (a file) or a common `pfx` ending in
the delimiter (a sub-directory), plus a `size`; per spec section 6 a listing
entry also carries a `lastModified` time, which fs.rs does not read (the FIXME
at fs.rs:304-305). -/
structure ChildEntry where
  key : Str
  pfx : Str
  size : Nat
  lastModified : Nat
deriving DecidableEq

/-- `struct S3Filesystem` (fs.rs:73-84).  The `client` field is not state: the
outcomes of its calls are passed to each operation explicitly. -/
structure S3Filesystem where
  bucket : Str
  key : Str
  size : Nat
  inflightReads : List (Nat × StreamingGetObject)
  nextHandle : Nat
  nextInode : Nat
  inodeInfo : List (Nat × InodeInfo)
  dirHandles : List (Nat × DirHandle)
  dirEntries : List (Nat × List (Str × Nat))
deriving DecidableEq

/-- `S3Filesystem::new` (fs.rs:87-116): root inode record, root directory
entries `.` and `..` mapping to the root, counters at 1 and `ROOT_INODE + 1`. -/
def S3Filesystem.new (bucket key : Str) (size : Nat) : S3Filesystem :=
  { bucket := bucket, key := key, size := size,
    inflightReads := [],
    nextHandle := 1,
    nextInode := ROOT_INODE + 1,
    inodeInfo := [(ROOT_INODE, ⟨[], ROOT_INODE, UNIX_EPOCH, FileType.directory, 1⟩)],
    dirHandles := [],
    dirEntries := [(ROOT_INODE, insertS ['.', '.'] ROOT_INODE (insertS ['.'] ROOT_INODE []))] }

/-- The loop body of `path_from_root` (fs.rs:123-131): walk parent links pushing
basenames (accumulated here by consing, which yields the reversed-then-joined
order of the Rust code), stopping at the root; the unbounded `while` loop is
embedded with fuel. -/
def pathNames (info : List (Nat × InodeInfo)) : Nat → Nat → List Str → Option (List Str)
  | 0, _, _ => none
  | fuel + 1, ino, acc =>
    if ino = ROOT_INODE then some acc
    else
      match lookupA info ino with
      | none => none
      | some i => pathNames info fuel i.parent (i.name :: acc)

/-- `Vec::join("/")` on the accumulated path components. -/
def joinSlash : List Str → Str
  | [] => []
  | [x] => x
  | x :: y :: rest => x ++ '/' :: joinSlash (y :: rest)

/-- Rust `str::split('/')` (used to state the round-trip property). -/
def splitSlash : Str → List Str
  | [] => [[]]
  | c :: rest =>
    match splitSlash rest with
    | [] => [[]]
    | cur :: done => if c = '/' then [] :: cur :: done else (c :: cur) :: done

/-- `S3Filesystem::path_from_root` (fs.rs:118-134): the root's path is the empty
string; otherwise walk to the root starting from an accumulator holding one
empty component (so the joined path ends in `/`), and join with `/`. -/
def S3Filesystem.path_from_root (st : S3Filesystem) (fuel ino : Nat) : Option Str :=
  if ino = ROOT_INODE then some []
  else (pathNames st.inodeInfo fuel ino [[]]).map joinSlash

/-- `make_attr` (fs.rs:147-170). -/
def make_attr (ino : Nat) (i : InodeInfo) : FileAttr :=
  let pnb : Nat × Nat × Nat :=
    match i.kind with
    | FileType.regularFile => (FILE_PERMISSIONS, 1, BLOCK_SIZE)
    | FileType.directory => (DIR_PERMISSIONS, 2, 512)
  { ino := ino, size := i.size, blocks := i.size / BLOCK_SIZE, atime := UNIX_EPOCH,
    mtime := i.mtime, ctime := UNIX_EPOCH, crtime := UNIX_EPOCH, kind := i.kind,
    perm := pnb.1, nlink := pnb.2.1, uid := UID, gid := GID, rdev := 0, flags := 0,
    blksize := pnb.2.2 }

/-- Reply of `lookup`.  `panicked` models a Rust panic from one of the two
`unwrap`s on the lookup path (fs.rs:194 on a non-UTF-8 name, fs.rs:204 on a
missing inode record). -/
inductive LookupReply where
  | entry (ino : Nat) (attr : FileAttr)
  | enoent
  | panicked
deriving DecidableEq

/-- `S3Filesystem::lookup` (fs.rs:179-206).  The kernel-supplied `OsStr` name is
modelled by its UTF-8 decoding: `some s` for a valid UTF-8 name, `none` for an
invalid one (on which `name.to_str().unwrap()` panics, but only after the
parent's entry set was found, matching the Rust statement order). -/
def S3Filesystem.lookup (st : S3Filesystem) (parent : Nat) (name : Option Str) : LookupReply :=
  match lookupA st.dirEntries parent with
  | none => LookupReply.enoent
  | some entries =>
    match name with
    | none => LookupReply.panicked
    | some s =>
      match lookupS entries s with
      | none => LookupReply.enoent
      | some ino =>
        match lookupA st.inodeInfo ino with
        | none => LookupReply.panicked
        | some info => LookupReply.entry ino (make_attr ino info)

/-- Reply of `getattr`. -/
inductive AttrReply where
  | attr (a : FileAttr)
  | enoent
deriving DecidableEq

/-- `S3Filesystem::getattr` (fs.rs:208-220). -/
def S3Filesystem.getattr (st : S3Filesystem) (ino : Nat) : AttrReply :=
  if ino = ROOT_INODE then AttrReply.attr ROOT_DIR_ATTR
  else
    match lookupA st.inodeInfo ino with
    | some info => AttrReply.attr (make_attr ino info)
    | none => AttrReply.enoent

/-- `S3Filesystem::open` (fs.rs:222-227): allocate a handle from the shared
counter and reply with it; no table is touched. -/
def S3Filesystem.openFile (st : S3Filesystem) : S3Filesystem × Nat :=
  ({ st with nextHandle := st.nextHandle + 1 }, st.nextHandle)

/-- Reply of `read`. -/
inductive ReadReply where
  | data (bytes : List Nat)
  | enoent
deriving DecidableEq

/-- `S3Filesystem::read` (fs.rs:229-260): for the reserved `FILE_INODE`, bind a
streaming session to the mount-time (bucket, key, size) on first use of the
handle and reply with the requested range; for any other inode reply
not-found. -/
def S3Filesystem.read (store : Str → Str → List Nat) (st : S3Filesystem)
    (ino fh offset size : Nat) : S3Filesystem × ReadReply :=
  if ino = FILE_INODE then
    match lookupA st.inflightReads fh with
    | some sess => (st, ReadReply.data (sess.readBytes store offset size))
    | none =>
      let sess : StreamingGetObject := ⟨st.bucket, st.key, st.size⟩
      ({ st with inflightReads := insertA fh sess st.inflightReads },
        ReadReply.data (sess.readBytes store offset size))
  else (st, ReadReply.enoent)

/-- Reply of `opendir`. -/
inductive OpendirReply where
  | opened (fh : Nat)
  | enoent
  | eio
deriving DecidableEq

/-- The loop body of `opendir` (fs.rs:290-313): classify each listing child as a
file (non-empty object key) or a sub-directory (common prefix with its trailing
delimiter popped), strip the directory's own prefix (byte slicing at the prefix
length, fs.rs:302), and allocate consecutive fresh inodes with the epoch mtime
placeholder (fs.rs:306).  Returns the ordered (inode, stripped name, record)
triples. -/
def listingChildren (pfx : Str) (parent nextIno : Nat) :
    List ChildEntry → List (Nat × Str × InodeInfo)
  | [] => []
  | c :: rest =>
    let nk : Str × FileType :=
      if c.key ≠ [] then (c.key, FileType.regularFile)
      else (c.pfx.dropLast, FileType.directory)
    let name := nk.1.drop pfx.length
    (nextIno, name, ⟨name, parent, UNIX_EPOCH, nk.2, c.size⟩) ::
      listingChildren pfx parent (nextIno + 1) rest

/-- `S3Filesystem::opendir` (fs.rs:262-342).  The outcome of the single
`list_objects_v2` call is the explicit `listing` argument; `fuel` feeds the
embedded `path_from_root` loop.  On success: insert the per-child inode records,
publish the complete new name-to-inode map as the directory's entry set in one
insertion, and allocate a directory handle holding the ordered fresh inodes. -/
def S3Filesystem.opendir (st : S3Filesystem) (fuel parent : Nat)
    (listing : Except Unit (List ChildEntry)) : S3Filesystem × OpendirReply :=
  match st.path_from_root fuel parent with
  | none => (st, OpendirReply.enoent)
  | some pfx =>
    match listing with
    | Except.error _ => (st, OpendirReply.eio)
    | Except.ok children =>
      let ts := listingChildren pfx parent st.nextInode children
      let inodeInfo' := ts.foldl (fun m t => insertA t.1 t.2.2 m) st.inodeInfo
      let newMap := ts.foldl (fun m t => insertS t.2.1 t.1 m) []
      let fh := st.nextHandle
      ({ st with
          inodeInfo := inodeInfo',
          nextInode := st.nextInode + children.length,
          dirEntries := insertA parent newMap st.dirEntries,
          nextHandle := st.nextHandle + 1,
          dirHandles := insertA fh ⟨ts.map (fun t => t.1)⟩ st.dirHandles },
        OpendirReply.opened fh)

/-- Reply of `readdir`: the emitted entries are (inode, offset cookie, kind,
name) in emission order; `panicked` models the `unwrap` at fs.rs:364 on a
missing inode record. -/
inductive ReaddirReply where
  | entries (es : List (Nat × Nat × FileType × Str))
  | ebadf
  | panicked
deriving DecidableEq

/-- The emission loop of `readdir` (fs.rs:362-366): for the snapshot entry at
index `i`, `reply.add` is called with offset cookie `i + 3`. -/
def readdirCollect (info : List (Nat × InodeInfo)) :
    List Nat → Nat → Option (List (Nat × Nat × FileType × Str))
  | [], _ => some []
  | c :: rest, i =>
    match lookupA info c with
    | none => none
    | some ii =>
      (readdirCollect info rest (i + 1)).map (fun es => (c, i + 3, ii.kind, ii.name) :: es)

/-- `S3Filesystem::readdir` (fs.rs:344-369): unknown handle is `EBADF`; an
offset at or past the snapshot size replies success with no entries; otherwise
emit the snapshot entries from index `offset` on. -/
def S3Filesystem.readdir (st : S3Filesystem) (_ino fh offset : Nat) : ReaddirReply :=
  match lookupA st.dirHandles fh with
  | none => ReaddirReply.ebadf
  | some h =>
    if h.children.length ≤ offset then ReaddirReply.entries []
    else
      match readdirCollect st.inodeInfo (h.children.drop offset) offset with
      | none => ReaddirReply.panicked
      | some es => ReaddirReply.entries es

/-- The handles issued by an `opendir` reply (one on success, none on error). -/
def issuedHandles : OpendirReply → List Nat
  | OpendirReply.opened fh => [fh]
  | _ => []

/-- One kernel callback that can change state, labelled with the handles it
issued.  `lookup`, `getattr` and `readdir` take `&self` and mutate nothing, so
they need no step. -/
inductive Step : S3Filesystem → List Nat → S3Filesystem → Prop where
  | doOpen (st st' : S3Filesystem) (fh : Nat) :
      st.openFile = (st', fh) → Step st [fh] st'
  | doRead (store : Str → Str → List Nat) (st : S3Filesystem) (ino fh offset size : Nat)
      (st' : S3Filesystem) (r : ReadReply) :
      S3Filesystem.read store st ino fh offset size = (st', r) → Step st [] st'
  | doOpendir (st : S3Filesystem) (fuel parent : Nat) (listing : Except Unit (List ChildEntry))
      (st' : S3Filesystem) (r : OpendirReply) :
      st.opendir fuel parent listing = (st', r) → Step st (issuedHandles r) st'

/-- States reachable from a mount, carrying the issued handles, newest first. -/
inductive ReachableT : S3Filesystem → List Nat → Prop where
  | mount (b k : Str) (sz : Nat) : ReachableT (S3Filesystem.new b k sz) []
  | step {st : S3Filesystem} {hs : List Nat} {ls : List Nat} {st' : S3Filesystem} :
      ReachableT st hs → Step st ls st' → ReachableT st' (ls ++ hs)

/-- States reachable from a mount by any sequence of operations. -/
def Reachable (st : S3Filesystem) : Prop := ∃ hs, ReachableT st hs

/-- The basename chain from the root down to `ino` through the parent links of
the inode table (the creation invariant: the parent chain reaches the root). -/
inductive ChainToRoot (info : List (Nat × InodeInfo)) : Nat → List Str → Prop where
  | root : ChainToRoot info ROOT_INODE []
  | step (ino : Nat) (i : InodeInfo) (names : List Str) :
      ino ≠ ROOT_INODE → lookupA info ino = some i →
      ChainToRoot info i.parent names → ChainToRoot info ino (names ++ [i.name])

/-- The state invariant maintained by every operation: the root inode record
exists, every inode-table key is below the inode counter, every in-flight read
session is bound to the mount-time (bucket, key, size), every recorded mtime is
the epoch placeholder, and the handle counter is at least its initial value. -/
def FsInv (st : S3Filesystem) : Prop :=
  (lookupA st.inodeInfo ROOT_INODE).isSome ∧
  (∀ k, (lookupA st.inodeInfo k).isSome → k < st.nextInode) ∧
  (∀ fh s, lookupA st.inflightReads fh = some s → s = ⟨st.bucket, st.key, st.size⟩) ∧
  (∀ k i, lookupA st.inodeInfo k = some i → i.mtime = UNIX_EPOCH) ∧
  1 ≤ st.nextHandle

/-! ## Association-list lemmas -/

theorem lookupA_eraseA {β : Type} (k a : Nat) (m : List (Nat × β)) (h : a ≠ k) :
    lookupA (eraseA k m) a = lookupA m a := by
  induction m with
  | nil => rfl
  | cons p rest ih =>
    obtain ⟨k', v⟩ := p
    by_cases hk : k' = k
    · simp [eraseA, hk, ih, lookupA, h]
    · by_cases ha : a = k'
      · simp [eraseA, hk, lookupA, ha]
      · simp [eraseA, hk, lookupA, ha, ih]

theorem lookupA_insertA_self {β : Type} (k : Nat) (v : β) (m : List (Nat × β)) :
    lookupA (insertA k v m) k = some v := by
  simp [insertA, lookupA]

theorem lookupA_insertA_ne {β : Type} (k : Nat) (v : β) (m : List (Nat × β)) (a : Nat)
    (h : a ≠ k) : lookupA (insertA k v m) a = lookupA m a := by
  simp [insertA, lookupA, h, lookupA_eraseA k a m h]

theorem lookupS_eraseS {β : Type} (k a : Str) (m : List (Str × β)) (h : a ≠ k) :
    lookupS (eraseS k m) a = lookupS m a := by
  induction m with
  | nil => rfl
  | cons p rest ih =>
    obtain ⟨k', v⟩ := p
    by_cases hk : k' = k
    · simp [eraseS, hk, ih, lookupS, h]
    · by_cases ha : a = k'
      · simp [eraseS, hk, lookupS, ha]
      · simp [eraseS, hk, lookupS, ha, ih]

theorem lookupS_insertS_self {β : Type} (k : Str) (v : β) (m : List (Str × β)) :
    lookupS (insertS k v m) k = some v := by
  simp [insertS, lookupS]

theorem lookupS_insertS_ne {β : Type} (k : Str) (v : β) (m : List (Str × β)) (a : Str)
    (h : a ≠ k) : lookupS (insertS k v m) a = lookupS m a := by
  simp [insertS, lookupS, h, lookupS_eraseS k a m h]

/-! ## Lemmas about the folds performed by `opendir` -/

theorem foldlInfo_lookup_old (ts : List (Nat × Str × InodeInfo)) (m0 : List (Nat × InodeInfo))
    (k : Nat) (h : ∀ t ∈ ts, t.1 ≠ k) :
    lookupA (ts.foldl (fun m t => insertA t.1 t.2.2 m) m0) k = lookupA m0 k := by
  induction ts generalizing m0 with
  | nil => rfl
  | cons t rest ih =>
    have hk : k ≠ t.1 := fun he => h t (List.mem_cons_self t rest) he.symm
    have := ih (insertA t.1 t.2.2 m0) (fun t' ht' => h t' (List.mem_cons_of_mem t ht'))
    simpa [List.foldl_cons, lookupA_insertA_ne t.1 t.2.2 m0 k hk] using this

theorem foldlInfo_lookup_cases (ts : List (Nat × Str × InodeInfo)) (m0 : List (Nat × InodeInfo))
    (k : Nat) (v : InodeInfo)
    (h : lookupA (ts.foldl (fun m t => insertA t.1 t.2.2 m) m0) k = some v) :
    lookupA m0 k = some v ∨ ∃ t ∈ ts, t.1 = k ∧ t.2.2 = v := by
  induction ts generalizing m0 with
  | nil => exact Or.inl h
  | cons t rest ih =>
    rcases ih (insertA t.1 t.2.2 m0) h with h0 | ⟨t', ht', he⟩
    · by_cases hk : k = t.1
      · subst hk
        rw [lookupA_insertA_self] at h0
        exact Or.inr ⟨t, List.mem_cons_self t rest, rfl, (Option.some.injEq _ _).mp h0⟩
      · rw [lookupA_insertA_ne t.1 t.2.2 m0 k hk] at h0
        exact Or.inl h0
    · exact Or.inr ⟨t', List.mem_cons_of_mem t ht', he⟩

theorem foldlMap_lookup_cases (ts : List (Nat × Str × InodeInfo)) (m0 : List (Str × Nat))
    (n : Str) (i : Nat)
    (h : lookupS (ts.foldl (fun m t => insertS t.2.1 t.1 m) m0) n = some i) :
    lookupS m0 n = some i ∨ ∃ t ∈ ts, t.2.1 = n ∧ t.1 = i := by
  induction ts generalizing m0 with
  | nil => exact Or.inl h
  | cons t rest ih =>
    rcases ih (insertS t.2.1 t.1 m0) h with h0 | ⟨t', ht', he⟩
    · by_cases hk : n = t.2.1
      · subst hk
        rw [lookupS_insertS_self] at h0
        exact Or.inr ⟨t, List.mem_cons_self t rest, rfl, (Option.some.injEq _ _).mp h0⟩
      · rw [lookupS_insertS_ne t.2.1 t.1 m0 n hk] at h0
        exact Or.inl h0
    · exact Or.inr ⟨t', List.mem_cons_of_mem t ht', he⟩

theorem foldlMap_isSome_mono (ts : List (Nat × Str × InodeInfo)) (m0 : List (Str × Nat))
    (n : Str) (h : (lookupS m0 n).isSome) :
    (lookupS (ts.foldl (fun m t => insertS t.2.1 t.1 m) m0) n).isSome := by
  induction ts generalizing m0 with
  | nil => exact h
  | cons t rest ih =>
    refine ih (insertS t.2.1 t.1 m0) ?_
    by_cases hk : n = t.2.1
    · subst hk; simp [lookupS_insertS_self]
    · rwa [lookupS_insertS_ne t.2.1 t.1 m0 n hk]

theorem foldlMap_lookup_mem (ts : List (Nat × Str × InodeInfo)) (m0 : List (Str × Nat))
    (t : Nat × Str × InodeInfo) (h : t ∈ ts) :
    (lookupS (ts.foldl (fun m t => insertS t.2.1 t.1 m) m0) t.2.1).isSome := by
  induction ts generalizing m0 with
  | nil => cases h
  | cons t' rest ih =>
    rcases List.mem_cons.mp h with he | hm
    · subst he
      exact foldlMap_isSome_mono rest (insertS t.2.1 t.1 m0) t.2.1 (by simp [lookupS_insertS_self])
    · exact ih (insertS t'.2.1 t'.1 m0) hm

/-! ## Lemmas about `listingChildren` -/

theorem listingChildren_mem (pfx : Str) (parent : Nat) :
    ∀ (children : List ChildEntry) (n0 : Nat) (t : Nat × Str × InodeInfo),
      t ∈ listingChildren pfx parent n0 children →
      n0 ≤ t.1 ∧ t.1 < n0 + children.length ∧ t.2.2.mtime = UNIX_EPOCH ∧
        t.2.2.parent = parent ∧ t.2.2.name = t.2.1 := by
  intro children
  induction children with
  | nil => intro n0 t h; cases h
  | cons c rest ih =>
    intro n0 t h
    rcases List.mem_cons.mp h with he | hm
    · subst he
      refine ⟨Nat.le_refl _, ?_, rfl, rfl, rfl⟩
      simp only [List.length_cons]
      omega
    · obtain ⟨h1, h2, h3⟩ := ih (n0 + 1) t hm
      refine ⟨Nat.le_of_succ_le h1, ?_, h3⟩
      simp only [List.length_cons]
      omega

theorem listingChildren_ignores_lastModified (pfx : Str) (parent : Nat)
    (f : ChildEntry → Nat) :
    ∀ (children : List ChildEntry) (n0 : Nat),
      listingChildren pfx parent n0
          (children.map (fun c => { c with lastModified := f c })) =
        listingChildren pfx parent n0 children := by
  intro children
  induction children with
  | nil => intro n0; rfl
  | cons c rest ih => intro n0; simp [listingChildren, ih (n0 + 1)]

/-! ## Equations for the branches of `opendir` -/

theorem opendir_none_eq (st : S3Filesystem) (fuel parent : Nat)
    (listing : Except Unit (List ChildEntry))
    (h : st.path_from_root fuel parent = none) :
    st.opendir fuel parent listing = (st, OpendirReply.enoent) := by
  simp [S3Filesystem.opendir, h]

theorem opendir_err_eq (st : S3Filesystem) (fuel parent : Nat) (pfx : Str) (e : Unit)
    (h : st.path_from_root fuel parent = some pfx) :
    st.opendir fuel parent (Except.error e) = (st, OpendirReply.eio) := by
  simp [S3Filesystem.opendir, h]

theorem opendir_ok_eq (st : S3Filesystem) (fuel parent : Nat) (pfx : Str)
    (children : List ChildEntry)
    (h : st.path_from_root fuel parent = some pfx) :
    st.opendir fuel parent (Except.ok children) =
      ({ st with
          inodeInfo := (listingChildren pfx parent st.nextInode children).foldl
            (fun m t => insertA t.1 t.2.2 m) st.inodeInfo,
          nextInode := st.nextInode + children.length,
          dirEntries := insertA parent
            ((listingChildren pfx parent st.nextInode children).foldl
              (fun m t => insertS t.2.1 t.1 m) []) st.dirEntries,
          nextHandle := st.nextHandle + 1,
          dirHandles := insertA st.nextHandle
            ⟨(listingChildren pfx parent st.nextInode children).map (fun t => t.1)⟩
            st.dirHandles },
        OpendirReply.opened st.nextHandle) := by
  simp [S3Filesystem.opendir, h]

/-! ## Step lemmas -/

theorem step_label {st : S3Filesystem} {ls : List Nat} {st' : S3Filesystem}
    (h : Step st ls st') :
    (ls = [] ∧ st'.nextHandle = st.nextHandle) ∨
      (ls = [st.nextHandle] ∧ st'.nextHandle = st.nextHandle + 1) := by
  cases h with
  | doOpen st st' fh he =>
    simp only [S3Filesystem.openFile, Prod.mk.injEq] at he
    obtain ⟨he1, he2⟩ := he
    exact Or.inr ⟨by rw [he2], by rw [← he1]⟩
  | doRead store st ino fh offset size st' r he =>
    refine Or.inl ⟨rfl, ?_⟩
    simp only [S3Filesystem.read] at he
    split at he
    · split at he
      · cases he; rfl
      · cases he; rfl
    · cases he; rfl
  | doOpendir st fuel parent listing st' r he =>
    cases hp : st.path_from_root fuel parent with
    | none =>
      rw [opendir_none_eq st fuel parent listing hp] at he
      cases he
      exact Or.inl ⟨rfl, rfl⟩
    | some pfx =>
      cases listing with
      | error e =>
        rw [opendir_err_eq st fuel parent pfx e hp] at he
        cases he
        exact Or.inl ⟨rfl, rfl⟩
      | ok children =>
        rw [opendir_ok_eq st fuel parent pfx children hp] at he
        cases he
        exact Or.inr ⟨rfl, rfl⟩

theorem step_config {st : S3Filesystem} {ls : List Nat} {st' : S3Filesystem}
    (h : Step st ls st') :
    st'.bucket = st.bucket ∧ st'.key = st.key ∧ st'.size = st.size := by
  cases h with
  | doOpen st st' fh he =>
    simp only [S3Filesystem.openFile, Prod.mk.injEq] at he
    obtain ⟨he1, _⟩ := he
    rw [← he1]
    exact ⟨rfl, rfl, rfl⟩
  | doRead store st ino fh offset size st' r he =>
    simp only [S3Filesystem.read] at he
    split at he
    · split at he
      · cases he; exact ⟨rfl, rfl, rfl⟩
      · cases he; exact ⟨rfl, rfl, rfl⟩
    · cases he; exact ⟨rfl, rfl, rfl⟩
  | doOpendir st fuel parent listing st' r he =>
    cases hp : st.path_from_root fuel parent with
    | none =>
      rw [opendir_none_eq st fuel parent listing hp] at he
      cases he; exact ⟨rfl, rfl, rfl⟩
    | some pfx =>
      cases listing with
      | error e =>
        rw [opendir_err_eq st fuel parent pfx e hp] at he
        cases he; exact ⟨rfl, rfl, rfl⟩
      | ok children =>
        rw [opendir_ok_eq st fuel parent pfx children hp] at he
        cases he; exact ⟨rfl, rfl, rfl⟩

/-! ## Equations for `read` -/

theorem read_other_eq (store : Str → Str → List Nat) (st : S3Filesystem)
    (ino fh offset size : Nat) (h : ino ≠ FILE_INODE) :
    S3Filesystem.read store st ino fh offset size = (st, ReadReply.enoent) := by
  simp [S3Filesystem.read, h]

theorem read_file_hit_eq (store : Str → Str → List Nat) (st : S3Filesystem)
    (fh offset size : Nat) (sess : StreamingGetObject)
    (h : lookupA st.inflightReads fh = some sess) :
    S3Filesystem.read store st FILE_INODE fh offset size =
      (st, ReadReply.data (sess.readBytes store offset size)) := by
  simp [S3Filesystem.read, h]

theorem read_file_miss_eq (store : Str → Str → List Nat) (st : S3Filesystem)
    (fh offset size : Nat) (h : lookupA st.inflightReads fh = none) :
    S3Filesystem.read store st FILE_INODE fh offset size =
      ({ st with inflightReads := insertA fh ⟨st.bucket, st.key, st.size⟩ st.inflightReads },
        ReadReply.data
          (StreamingGetObject.readBytes store ⟨st.bucket, st.key, st.size⟩ offset size)) := by
  simp [S3Filesystem.read, h]

/-! ## The invariant holds at mount and is preserved by every step -/

theorem fsInv_new (b k : Str) (sz : Nat) : FsInv (S3Filesystem.new b k sz) := by
  refine ⟨by simp [S3Filesystem.new, lookupA], ?_, ?_, ?_, ?_⟩
  · intro k2 hk
    simp only [S3Filesystem.new, lookupA] at hk
    split at hk
    · simp only [S3Filesystem.new]
      omega
    · simp [lookupA] at hk
  · intro fh s hs
    simp [S3Filesystem.new, lookupA] at hs
  · intro k2 i hi
    simp only [S3Filesystem.new, lookupA] at hi
    split at hi
    · cases hi; rfl
    · simp [lookupA] at hi
  · exact Nat.le_refl 1

theorem fsInv_step {st : S3Filesystem} {ls : List Nat} {st' : S3Filesystem}
    (hinv : FsInv st) (h : Step st ls st') : FsInv st' := by
  obtain ⟨hroot, hlt, hsess, hmt, hh⟩ := hinv
  cases h with
  | doOpen st st' fh he =>
    simp only [S3Filesystem.openFile, Prod.mk.injEq] at he
    obtain ⟨he1, _⟩ := he
    rw [← he1]
    exact ⟨hroot, hlt, hsess, hmt, Nat.le_succ_of_le hh⟩
  | doRead store st ino fh offset size st' r he =>
    by_cases hino : ino = FILE_INODE
    · subst hino
      cases hl : lookupA st.inflightReads fh with
      | some sess =>
        rw [read_file_hit_eq store st fh offset size sess hl] at he
        cases he
        exact ⟨hroot, hlt, hsess, hmt, hh⟩
      | none =>
        rw [read_file_miss_eq store st fh offset size hl] at he
        cases he
        refine ⟨hroot, hlt, ?_, hmt, hh⟩
        intro fh' s hs
        by_cases hf : fh' = fh
        · subst hf
          rw [lookupA_insertA_self] at hs
          cases hs; rfl
        · rw [lookupA_insertA_ne fh _ _ fh' hf] at hs
          exact hsess fh' s hs
    · rw [read_other_eq store st ino fh offset size hino] at he
      cases he
      exact ⟨hroot, hlt, hsess, hmt, hh⟩
  | doOpendir st fuel parent listing st' r he =>
    cases hp : st.path_from_root fuel parent with
    | none =>
      rw [opendir_none_eq st fuel parent listing hp] at he
      cases he
      exact ⟨hroot, hlt, hsess, hmt, hh⟩
    | some pfx =>
      cases listing with
      | error e =>
        rw [opendir_err_eq st fuel parent pfx e hp] at he
        cases he
        exact ⟨hroot, hlt, hsess, hmt, hh⟩
      | ok children =>
        rw [opendir_ok_eq st fuel parent pfx children hp] at he
        cases he
        have hrlt : ROOT_INODE < st.nextInode := hlt ROOT_INODE hroot
        have hfresh : ∀ t ∈ listingChildren pfx parent st.nextInode children,
            t.1 ≠ ROOT_INODE := by
          intro t ht
          have := (listingChildren_mem pfx parent children st.nextInode t ht).1
          omega
        refine ⟨?_, ?_, hsess, ?_, Nat.le_succ_of_le hh⟩
        · rw [foldlInfo_lookup_old _ _ _ hfresh]
          exact hroot
        · intro k2 hk
          obtain ⟨v, hv⟩ := Option.isSome_iff_exists.mp hk
          show k2 < st.nextInode + children.length
          rcases foldlInfo_lookup_cases _ _ _ _ hv with hold | ⟨t, ht, ht1, _⟩
          · have : k2 < st.nextInode := hlt k2 (by rw [hold]; rfl)
            omega
          · have := (listingChildren_mem pfx parent children st.nextInode t ht).2.1
            omega
        · intro k2 i hi
          rcases foldlInfo_lookup_cases _ _ _ _ hi with hold | ⟨t, ht, _, ht2⟩
          · exact hmt k2 i hold
          · rw [← ht2]
            exact (listingChildren_mem pfx parent children st.nextInode t ht).2.2.1

theorem reachableT_inv {st : S3Filesystem} {hs : List Nat} (h : ReachableT st hs) :
    FsInv st := by
  induction h with
  | mount b k sz => exact fsInv_new b k sz
  | step hr hstep ih => exact fsInv_step ih hstep

theorem reachable_inv {st : S3Filesystem} (h : Reachable st) : FsInv st := by
  obtain ⟨hs, hr⟩ := h
  exact reachableT_inv hr

theorem step_inodeInfo_preserved {st : S3Filesystem} {ls : List Nat} {st' : S3Filesystem}
    (hinv : FsInv st) (h : Step st ls st') :
    ∀ k v, lookupA st.inodeInfo k = some v → lookupA st'.inodeInfo k = some v := by
  obtain ⟨hroot, hlt, hsess, hmt, hh⟩ := hinv
  intro k v hkv
  cases h with
  | doOpen st st' fh he =>
    simp only [S3Filesystem.openFile, Prod.mk.injEq] at he
    obtain ⟨he1, _⟩ := he
    rw [← he1]
    exact hkv
  | doRead store st ino fh offset size st' r he =>
    by_cases hino : ino = FILE_INODE
    · subst hino
      cases hl : lookupA st.inflightReads fh with
      | some sess =>
        rw [read_file_hit_eq store st fh offset size sess hl] at he
        cases he; exact hkv
      | none =>
        rw [read_file_miss_eq store st fh offset size hl] at he
        cases he; exact hkv
    · rw [read_other_eq store st ino fh offset size hino] at he
      cases he; exact hkv
  | doOpendir st fuel parent listing st' r he =>
    cases hp : st.path_from_root fuel parent with
    | none =>
      rw [opendir_none_eq st fuel parent listing hp] at he
      cases he; exact hkv
    | some pfx =>
      cases listing with
      | error e =>
        rw [opendir_err_eq st fuel parent pfx e hp] at he
        cases he; exact hkv
      | ok children =>
        rw [opendir_ok_eq st fuel parent pfx children hp] at he
        cases he
        have hklt : k < st.nextInode := hlt k (by rw [hkv]; rfl)
        have hfresh : ∀ t ∈ listingChildren pfx parent st.nextInode children, t.1 ≠ k := by
          intro t ht
          have := (listingChildren_mem pfx parent children st.nextInode t ht).1
          omega
        rw [foldlInfo_lookup_old _ _ _ hfresh]
        exact hkv

theorem reachableT_handles {st : S3Filesystem} {hs : List Nat} (h : ReachableT st hs) :
    (∀ a ∈ hs, 1 ≤ a ∧ a < st.nextHandle) ∧ hs.Pairwise (fun a b => b < a) := by
  induction h with
  | mount b k sz =>
    refine ⟨?_, List.Pairwise.nil⟩
    intro a ha
    cases ha
  | step hr hstep ih =>
    obtain ⟨hb, hp⟩ := ih
    have hinv := reachableT_inv hr
    rcases step_label hstep with ⟨hl, hn⟩ | ⟨hl, hn⟩
    · subst hl
      rw [List.nil_append, hn]
      exact ⟨hb, hp⟩
    · subst hl
      rw [List.singleton_append, hn]
      constructor
      · intro a ha
        rcases List.mem_cons.mp ha with hae | ham
        · subst hae
          exact ⟨hinv.2.2.2.2, Nat.lt_succ_self _⟩
        · obtain ⟨h1, h2⟩ := hb a ham
          exact ⟨h1, Nat.lt_succ_of_lt h2⟩
      · exact List.Pairwise.cons (fun b hbmem => (hb b hbmem).2) hp

/-! ## Path resolution lemmas -/

theorem pathNames_of_chain {info : List (Nat × InodeInfo)} {ino : Nat} {names : List Str}
    (h : ChainToRoot info ino names) :
    ∀ fuel, names.length < fuel → ∀ acc, pathNames info fuel ino acc = some (names ++ acc) := by
  induction h with
  | root =>
    intro fuel hf acc
    match fuel, hf with
    | f + 1, _ => simp [pathNames]
  | step ino i names hne hl hch ih =>
    intro fuel hf acc
    match fuel, hf with
    | f + 1, hf =>
      have hlen : names.length < f := by
        simp only [List.length_append, List.length_singleton] at hf
        omega
      simp only [pathNames, if_neg hne, hl]
      rw [ih f hlen (i.name :: acc)]
      simp

theorem splitSlash_ne_nil (s : Str) : splitSlash s ≠ [] := by
  induction s with
  | nil => simp [splitSlash]
  | cons c rest ih =>
    simp only [splitSlash]
    cases h : splitSlash rest with
    | nil => simp
    | cons cur done => by_cases hc : c = '/' <;> simp [hc]

theorem splitSlash_no_slash (x : Str) (h : ('/' : Char) ∉ x) : splitSlash x = [x] := by
  induction x with
  | nil => rfl
  | cons c rest ih =>
    have hc : c ≠ '/' := fun he => h (he ▸ List.mem_cons_self c rest)
    have hrest : ('/' : Char) ∉ rest := fun hm => h (List.mem_cons_of_mem c hm)
    simp only [splitSlash, ih hrest]
    simp [hc]

theorem splitSlash_append (x r : Str) (h : ('/' : Char) ∉ x) :
    splitSlash (x ++ '/' :: r) = x :: splitSlash r := by
  induction x with
  | nil =>
    simp only [List.nil_append, splitSlash]
    match hr : splitSlash r with
    | [] => exact absurd hr (splitSlash_ne_nil r)
    | cur :: done => simp
  | cons c rest ih =>
    have hc : c ≠ '/' := fun he => h (he ▸ List.mem_cons_self c rest)
    have hrest : ('/' : Char) ∉ rest := fun hm => h (List.mem_cons_of_mem c hm)
    simp only [List.cons_append, splitSlash, List.append_eq]
    rw [ih hrest]
    simp [hc]

theorem splitSlash_joinSlash (l : List Str) (h : l ≠ [])
    (h2 : ∀ x ∈ l, ('/' : Char) ∉ x) : splitSlash (joinSlash l) = l := by
  induction l with
  | nil => exact absurd rfl h
  | cons x rest ih =>
    cases rest with
    | nil =>
      simp only [joinSlash]
      exact splitSlash_no_slash x (h2 x (List.mem_cons_self x []))
    | cons y rest' =>
      have hx : ('/' : Char) ∉ x := h2 x (List.mem_cons_self x (y :: rest'))
      have hrest : ∀ z ∈ y :: rest', ('/' : Char) ∉ z :=
        fun z hz => h2 z (List.mem_cons_of_mem x hz)
      simp only [joinSlash]
      rw [splitSlash_append x (joinSlash (y :: rest')) hx,
        ih (List.cons_ne_nil y rest') hrest]

theorem joinSlash_append_empty (names : List Str) (h : names ≠ []) :
    joinSlash (names ++ [[]]) = joinSlash names ++ ['/'] := by
  induction names with
  | nil => exact absurd rfl h
  | cons x rest ih =>
    cases rest with
    | nil => simp [joinSlash]
    | cons y rest' =>
      have hih := ih (List.cons_ne_nil y rest')
      calc joinSlash ((x :: y :: rest') ++ [[]])
          = x ++ '/' :: joinSlash ((y :: rest') ++ [[]]) := by simp [joinSlash]
        _ = x ++ '/' :: (joinSlash (y :: rest') ++ ['/']) := by rw [hih]
        _ = (x ++ '/' :: joinSlash (y :: rest')) ++ ['/'] := by simp

theorem chain_names_ne_nil {info : List (Nat × InodeInfo)} {ino : Nat} {names : List Str}
    (h : ChainToRoot info ino names) (hne : ino ≠ ROOT_INODE) : names ≠ [] := by
  cases h with
  | root => exact absurd rfl hne
  | step ino i names h1 h2 h3 => simp

/-! ## Claim theorems -/

/-- C3: opendir is atomic with respect to failure.  For a directory whose path
resolves, a listing error makes opendir reply EIO with the entire shared state
(every field of the filesystem structure) exactly as before; a successful
listing replies with an opened handle and replaces the directory's entry set
wholesale, in one single map insertion, with a complete name-to-inode map in
which every listed child's stripped name is present, leaving every other
directory's entry set untouched. -/
theorem c3_opendir_atomic (st : S3Filesystem) (fuel parent : Nat) (pfx : Str)
    (h : st.path_from_root fuel parent = some pfx) :
    (∀ e, st.opendir fuel parent (Except.error e) = (st, OpendirReply.eio)) ∧
    (∀ children,
      ∃ fh m,
        (st.opendir fuel parent (Except.ok children)).2 = OpendirReply.opened fh ∧
        (st.opendir fuel parent (Except.ok children)).1.dirEntries =
          insertA parent m st.dirEntries ∧
        (∀ t ∈ listingChildren pfx parent st.nextInode children, (lookupS m t.2.1).isSome) ∧
        (∀ d, d ≠ parent →
          lookupA (st.opendir fuel parent (Except.ok children)).1.dirEntries d =
            lookupA st.dirEntries d)) := by
  constructor
  · intro e
    exact opendir_err_eq st fuel parent pfx e h
  · intro children
    refine ⟨st.nextHandle,
      (listingChildren pfx parent st.nextInode children).foldl
        (fun m t => insertS t.2.1 t.1 m) [], ?_, ?_, ?_, ?_⟩
    · rw [opendir_ok_eq st fuel parent pfx children h]
    · rw [opendir_ok_eq st fuel parent pfx children h]
    · intro t ht
      exact foldlMap_lookup_mem _ [] t ht
    · intro d hd
      rw [opendir_ok_eq st fuel parent pfx children h]
      exact lookupA_insertA_ne parent _ st.dirEntries d hd

/-- Witness for C3 at a concrete mount state: a failed listing on the root
leaves the freshly mounted state untouched and replies EIO. -/
theorem c3_opendir_atomic_witness :
    (S3Filesystem.new [] [] 0).opendir 1 ROOT_INODE (Except.error ()) =
      (S3Filesystem.new [] [] 0, OpendirReply.eio) :=
  (c3_opendir_atomic (S3Filesystem.new [] [] 0) 1 ROOT_INODE [] (by decide)).1 ()

/-- C4: for every inode other than the root whose parent chain reaches the root
with (as creation guarantees for delimiter-based listings) slash-free basenames,
path_from_root terminates with a string ending in the separator whose re-split
on the separator reproduces the chain of basenames from the root down to the
inode (followed by the empty component contributed by the trailing separator);
the root's path is the empty string. -/
theorem c4_path_from_root_correct (st : S3Filesystem) (fuel ino : Nat) (names : List Str)
    (hch : ChainToRoot st.inodeInfo ino names)
    (hsl : ∀ n ∈ names, ('/' : Char) ∉ n)
    (hfuel : names.length < fuel) :
    st.path_from_root fuel ROOT_INODE = some [] ∧
    (ino ≠ ROOT_INODE →
      ∃ s, st.path_from_root fuel ino = some s ∧ (∃ t, s = t ++ ['/']) ∧
        splitSlash s = names ++ [[]]) := by
  constructor
  · simp [S3Filesystem.path_from_root]
  · intro hne
    have hnames := chain_names_ne_nil hch hne
    have hpn := pathNames_of_chain hch fuel hfuel [[]]
    refine ⟨joinSlash (names ++ [[]]), ?_, ?_, ?_⟩
    · simp [S3Filesystem.path_from_root, hne, hpn]
    · exact ⟨joinSlash names, joinSlash_append_empty names hnames⟩
    · apply splitSlash_joinSlash
      · simp
      · intro x hx
        rcases List.mem_append.mp hx with h1 | h2
        · exact hsl x h1
        · rw [List.mem_singleton.mp h2]
          simp

/-- Witness for C4 at a concrete two-inode table: the path of inode 2 (basename
`a`, parent root) is `a/`, which re-splits into the chain plus the trailing
empty component. -/
theorem c4_path_from_root_witness :
    ∃ s,
      (S3Filesystem.mk [] [] 0 [] 1 3
          [(ROOT_INODE, ⟨[], ROOT_INODE, UNIX_EPOCH, FileType.directory, 1⟩),
            (2, ⟨['a'], ROOT_INODE, UNIX_EPOCH, FileType.regularFile, 0⟩)]
          [] []).path_from_root 2 2 = some s ∧
      (∃ t, s = t ++ ['/']) ∧ splitSlash s = [['a']] ++ [[]] := by
  have hch : ChainToRoot
      [(ROOT_INODE, ⟨[], ROOT_INODE, UNIX_EPOCH, FileType.directory, 1⟩),
        (2, ⟨['a'], ROOT_INODE, UNIX_EPOCH, FileType.regularFile, 0⟩)] 2 [['a']] :=
    ChainToRoot.step 2 ⟨['a'], ROOT_INODE, UNIX_EPOCH, FileType.regularFile, 0⟩ []
      (by decide) (by decide) ChainToRoot.root
  exact (c4_path_from_root_correct
      (S3Filesystem.mk [] [] 0 [] 1 3
        [(ROOT_INODE, ⟨[], ROOT_INODE, UNIX_EPOCH, FileType.directory, 1⟩),
          (2, ⟨['a'], ROOT_INODE, UNIX_EPOCH, FileType.regularFile, 0⟩)]
        [] []) 2 2 [['a']] hch (by decide) (by decide)).2 (by decide)

/-- C5: a read request for any inode other than the reserved FILE_INODE replies
not-found with the whole state (in particular the read-session table) unchanged;
a read of the reserved inode always replies with data, never not-found. -/
theorem c5_read_only_reserved_inode (store : Str → Str → List Nat) (st : S3Filesystem)
    (ino fh offset size : Nat) :
    (ino ≠ FILE_INODE →
      S3Filesystem.read store st ino fh offset size = (st, ReadReply.enoent)) ∧
    (ino = FILE_INODE →
      ∃ bs, (S3Filesystem.read store st ino fh offset size).2 = ReadReply.data bs) := by
  constructor
  · intro h
    exact read_other_eq store st ino fh offset size h
  · intro h
    subst h
    cases hl : lookupA st.inflightReads fh with
    | some sess =>
      rw [read_file_hit_eq store st fh offset size sess hl]
      exact ⟨_, rfl⟩
    | none =>
      rw [read_file_miss_eq store st fh offset size hl]
      exact ⟨_, rfl⟩

/-- Witness for C5 at a concrete state: inode 3 is rejected with the state
unchanged, while the reserved inode 2 yields data. -/
theorem c5_read_only_reserved_inode_witness :
    S3Filesystem.read (fun _ _ => []) (S3Filesystem.new [] [] 0) 3 1 0 4 =
      (S3Filesystem.new [] [] 0, ReadReply.enoent) ∧
    ∃ bs, (S3Filesystem.read (fun _ _ => []) (S3Filesystem.new [] [] 0) 2 1 0 4).2 =
      ReadReply.data bs :=
  ⟨(c5_read_only_reserved_inode (fun _ _ => []) (S3Filesystem.new [] [] 0) 3 1 0 4).1
      (by decide),
    (c5_read_only_reserved_inode (fun _ _ => []) (S3Filesystem.new [] [] 0) 2 1 0 4).2 rfl⟩

/-- C10: on a parent that has an entry set, lookup with a non-UTF-8 name (one
whose decoding fails) panics rather than replying not-found, while lookup with
any valid UTF-8 name absent from the entry set replies not-found. -/
theorem c10_lookup_utf8_totality (st : S3Filesystem) (parent : Nat)
    (entries : List (Str × Nat)) (hp : lookupA st.dirEntries parent = some entries) :
    st.lookup parent none = LookupReply.panicked ∧
    (∀ s, lookupS entries s = none → st.lookup parent (some s) = LookupReply.enoent) := by
  constructor
  · simp [S3Filesystem.lookup, hp]
  · intro s hs
    simp [S3Filesystem.lookup, hp, hs]

/-- Witness for C10 at the mounted root: an undecodable name panics, and the
absent valid name `x` replies not-found. -/
theorem c10_lookup_utf8_totality_witness :
    (S3Filesystem.new [] [] 0).lookup ROOT_INODE none = LookupReply.panicked ∧
    (S3Filesystem.new [] [] 0).lookup ROOT_INODE (some ['x']) = LookupReply.enoent := by
  have h := c10_lookup_utf8_totality (S3Filesystem.new [] [] 0) ROOT_INODE
    (insertS ['.', '.'] ROOT_INODE (insertS ['.'] ROOT_INODE [])) (by decide)
  exact ⟨h.1, h.2 ['x'] (by decide)⟩

theorem step_inodeInfo_fresh {st : S3Filesystem} {ls : List Nat} {st' : S3Filesystem}
    (h : Step st ls st') :
    ∀ k, lookupA st.inodeInfo k = none → (lookupA st'.inodeInfo k).isSome →
      st.nextInode ≤ k := by
  intro k hnone hsome
  cases h with
  | doOpen st st' fh he =>
    simp only [S3Filesystem.openFile, Prod.mk.injEq] at he
    obtain ⟨he1, _⟩ := he
    rw [← he1] at hsome
    rw [hnone] at hsome
    simp at hsome
  | doRead store st ino fh offset size st' r he =>
    by_cases hino : ino = FILE_INODE
    · subst hino
      cases hl : lookupA st.inflightReads fh with
      | some sess =>
        rw [read_file_hit_eq store st fh offset size sess hl] at he
        cases he
        rw [hnone] at hsome
        simp at hsome
      | none =>
        rw [read_file_miss_eq store st fh offset size hl] at he
        cases he
        rw [hnone] at hsome
        simp at hsome
    · rw [read_other_eq store st ino fh offset size hino] at he
      cases he
      rw [hnone] at hsome
      simp at hsome
  | doOpendir st fuel parent listing st' r he =>
    cases hp : st.path_from_root fuel parent with
    | none =>
      rw [opendir_none_eq st fuel parent listing hp] at he
      cases he
      rw [hnone] at hsome
      simp at hsome
    | some pfx =>
      cases listing with
      | error e =>
        rw [opendir_err_eq st fuel parent pfx e hp] at he
        cases he
        rw [hnone] at hsome
        simp at hsome
      | ok children =>
        rw [opendir_ok_eq st fuel parent pfx children hp] at he
        cases he
        obtain ⟨v, hv⟩ := Option.isSome_iff_exists.mp hsome
        rcases foldlInfo_lookup_cases _ _ _ _ hv with hold | ⟨t, ht, ht1, _⟩
        · rw [hnone] at hold
          cases hold
        · have := (listingChildren_mem pfx parent children st.nextInode t ht).1
          omega

/-- C7: in every reachable state the root inode 1 is present in the inode
table and every present inode number is below the allocation counter; every
operation preserves every existing inode-table entry unchanged (no removal, no
overwrite), and any inode an operation newly adds has a number at or above the
counter, hence distinct from every previously existing inode, the root
included — inode numbers are never reused. -/
theorem c7_inode_table_monotone (st : S3Filesystem) (hr : Reachable st) :
    (lookupA st.inodeInfo ROOT_INODE).isSome ∧
    (∀ k, (lookupA st.inodeInfo k).isSome → k < st.nextInode) ∧
    (∀ ls st', Step st ls st' →
      (∀ k v, lookupA st.inodeInfo k = some v → lookupA st'.inodeInfo k = some v) ∧
      (∀ k, lookupA st.inodeInfo k = none → (lookupA st'.inodeInfo k).isSome →
        st.nextInode ≤ k)) := by
  have hinv := reachable_inv hr
  exact ⟨hinv.1, hinv.2.1, fun ls st' hstep =>
    ⟨step_inodeInfo_preserved hinv hstep, step_inodeInfo_fresh hstep⟩⟩

/-- Witness for C7 at the mount state: the root inode record exists. -/
theorem c7_inode_table_monotone_witness :
    (lookupA (S3Filesystem.new [] [] 0).inodeInfo ROOT_INODE).isSome :=
  (c7_inode_table_monotone (S3Filesystem.new [] [] 0)
      ⟨[], ReachableT.mount [] [] 0⟩).1

/-- C8: the reply of a read on the reserved inode is determined by the
mount-time configuration (bucket, key, size) and the request arguments alone:
in every reachable state it is exactly the bytes of the mount-configured object
range, so two reachable states with the same configuration (however much their
inode tables differ) return identical read replies. -/
theorem c8_read_ignores_inode_table (store : Str → Str → List Nat) (st : S3Filesystem)
    (fh offset size : Nat) (hr : Reachable st) :
    (S3Filesystem.read store st FILE_INODE fh offset size).2 =
      ReadReply.data
        (StreamingGetObject.readBytes store ⟨st.bucket, st.key, st.size⟩ offset size) ∧
    (∀ st2, Reachable st2 → st2.bucket = st.bucket → st2.key = st.key → st2.size = st.size →
      (S3Filesystem.read store st2 FILE_INODE fh offset size).2 =
        (S3Filesystem.read store st FILE_INODE fh offset size).2) := by
  have main : ∀ stx, Reachable stx →
      (S3Filesystem.read store stx FILE_INODE fh offset size).2 =
        ReadReply.data
          (StreamingGetObject.readBytes store ⟨stx.bucket, stx.key, stx.size⟩ offset size) := by
    intro stx hx
    obtain ⟨_, _, hsess, _, _⟩ := reachable_inv hx
    cases hl : lookupA stx.inflightReads fh with
    | some sess =>
      rw [read_file_hit_eq store stx fh offset size sess hl, hsess fh sess hl]
    | none =>
      rw [read_file_miss_eq store stx fh offset size hl]
  refine ⟨main st hr, ?_⟩
  intro st2 h2 hb hk hsz
  rw [main st hr, main st2 h2, hb, hk, hsz]

/-- Witness for C8 at the mount state with a two-byte object. -/
theorem c8_read_ignores_inode_table_witness :
    (S3Filesystem.read (fun _ _ => [7, 8]) (S3Filesystem.new [] [] 2) FILE_INODE 1 0 4).2 =
      ReadReply.data
        (StreamingGetObject.readBytes (fun _ _ => [7, 8]) ⟨[], [], 2⟩ 0 4) :=
  (c8_read_ignores_inode_table (fun _ _ => [7, 8]) (S3Filesystem.new [] [] 2) 1 0 4
      ⟨[], ReachableT.mount [] [] 2⟩).1

/-- C9: every inode record in every reachable state carries the epoch
placeholder as its mtime (in particular every inode opendir creates), the
last-modified times carried by listing entries are entirely discarded by
opendir (mapping them arbitrarily leaves the result unchanged), and getattr and
lookup therefore report the epoch mtime for every entry they reply for. -/
theorem c9_epoch_mtime :
    (∀ st, Reachable st → ∀ k i, lookupA st.inodeInfo k = some i →
      i.mtime = UNIX_EPOCH) ∧
    (∀ (st : S3Filesystem) (fuel parent : Nat) (children : List ChildEntry)
        (f : ChildEntry → Nat),
      st.opendir fuel parent
          (Except.ok (children.map (fun c => { c with lastModified := f c }))) =
        st.opendir fuel parent (Except.ok children)) ∧
    (∀ st ino a, Reachable st → st.getattr ino = AttrReply.attr a →
      a.mtime = UNIX_EPOCH) ∧
    (∀ st parent name ino a, Reachable st →
      st.lookup parent name = LookupReply.entry ino a → a.mtime = UNIX_EPOCH) := by
  refine ⟨?_, ?_, ?_, ?_⟩
  · intro st hr k i hk
    exact (reachable_inv hr).2.2.2.1 k i hk
  · intro st fuel parent children f
    cases hp : st.path_from_root fuel parent with
    | none =>
      rw [opendir_none_eq _ _ _ _ hp, opendir_none_eq _ _ _ _ hp]
    | some pfx =>
      rw [opendir_ok_eq st fuel parent pfx _ hp, opendir_ok_eq st fuel parent pfx children hp,
        listingChildren_ignores_lastModified pfx parent f children st.nextInode]
      simp
  · intro st ino a hr hg
    have hmt := (reachable_inv hr).2.2.2.1
    by_cases hino : ino = ROOT_INODE
    · subst hino
      have hroot : st.getattr ROOT_INODE = AttrReply.attr ROOT_DIR_ATTR := by
        simp [S3Filesystem.getattr]
      rw [hroot] at hg
      injection hg with h
      rw [← h]
      rfl
    · cases hl : lookupA st.inodeInfo ino with
      | none => simp [S3Filesystem.getattr, hino, hl] at hg
      | some info =>
        simp only [S3Filesystem.getattr, if_neg hino, hl, AttrReply.attr.injEq] at hg
        rw [← hg]
        exact hmt ino info hl
  · intro st parent name ino a hr hl
    have hmt := (reachable_inv hr).2.2.2.1
    cases hpe : lookupA st.dirEntries parent with
    | none => simp [S3Filesystem.lookup, hpe] at hl
    | some entries =>
      cases name with
      | none => simp [S3Filesystem.lookup, hpe] at hl
      | some s =>
        cases hse : lookupS entries s with
        | none => simp [S3Filesystem.lookup, hpe, hse] at hl
        | some ino' =>
          cases hii : lookupA st.inodeInfo ino' with
          | none => simp [S3Filesystem.lookup, hpe, hse, hii] at hl
          | some info =>
            simp only [S3Filesystem.lookup, hpe, hse, hii, LookupReply.entry.injEq] at hl
            rw [← hl.2]
            exact hmt ino' info hii

/-- Witness for C9: after a mount followed by an opendir that lists one file,
getattr of the created inode 2 reports the epoch mtime. -/
theorem c9_epoch_mtime_witness :
    (S3Filesystem.getattr
        ((S3Filesystem.new [] [] 0).opendir 1 ROOT_INODE
            (Except.ok [⟨['a'], [], 5, 0⟩])).1 2 =
      AttrReply.attr (make_attr 2 ⟨['a'], ROOT_INODE, UNIX_EPOCH, FileType.regularFile, 5⟩)) ∧
    (make_attr 2 ⟨['a'], ROOT_INODE, UNIX_EPOCH, FileType.regularFile, 5⟩).mtime =
      UNIX_EPOCH := by
  refine ⟨by decide, ?_⟩
  exact c9_epoch_mtime.2.2.1
    ((S3Filesystem.new [] [] 0).opendir 1 ROOT_INODE (Except.ok [⟨['a'], [], 5, 0⟩])).1 2
    (make_attr 2 ⟨['a'], ROOT_INODE, UNIX_EPOCH, FileType.regularFile, 5⟩)
    ⟨issuedHandles (OpendirReply.opened 1) ++ [],
      ReachableT.step (ReachableT.mount [] [] 0)
        (Step.doOpendir _ 1 ROOT_INODE (Except.ok [⟨['a'], [], 5, 0⟩]) _ _ rfl)⟩
    (by decide)

/-- C6: along every reachable trace, the handles issued by open and opendir
come from the one shared counter: each issued handle equals the counter value
at issue time and every issued handle is strictly greater than all handles
issued before it (so none is ever reused), all issued handles are at least the
initial counter value 1 and below the current counter; opendir records its
handle in the directory-handle table and leaves the file read-session table
untouched, while open touches neither table, so the two handle kinds live in
the same numeric space but disjoint tables. -/
theorem c6_shared_handle_counter (st : S3Filesystem) (hs : List Nat)
    (h : ReachableT st hs) :
    hs.Pairwise (fun a b => b < a) ∧
    hs.Nodup ∧
    (∀ a ∈ hs, 1 ≤ a ∧ a < st.nextHandle) ∧
    (∀ st' fh, st.openFile = (st', fh) →
      fh = st.nextHandle ∧ st'.nextHandle = st.nextHandle + 1 ∧
      st'.dirHandles = st.dirHandles ∧ st'.inflightReads = st.inflightReads) ∧
    (∀ fuel parent listing st' fh,
      st.opendir fuel parent listing = (st', OpendirReply.opened fh) →
      fh = st.nextHandle ∧ st'.nextHandle = st.nextHandle + 1 ∧
      (lookupA st'.dirHandles fh).isSome ∧ st'.inflightReads = st.inflightReads) := by
  obtain ⟨hb, hp⟩ := reachableT_handles h
  refine ⟨hp, ?_, hb, ?_, ?_⟩
  · exact hp.imp (fun hab => Nat.ne_of_gt hab)
  · intro st' fh he
    simp only [S3Filesystem.openFile, Prod.mk.injEq] at he
    obtain ⟨he1, he2⟩ := he
    rw [← he1, ← he2]
    exact ⟨rfl, rfl, rfl, rfl⟩
  · intro fuel parent listing st' fh he
    cases hp2 : st.path_from_root fuel parent with
    | none =>
      rw [opendir_none_eq _ _ _ _ hp2] at he
      simp at he
    | some pfx =>
      cases listing with
      | error e =>
        rw [opendir_err_eq _ _ _ pfx e hp2] at he
        simp at he
      | ok children =>
        rw [opendir_ok_eq _ _ _ pfx children hp2] at he
        simp only [Prod.mk.injEq, OpendirReply.opened.injEq] at he
        obtain ⟨he1, he2⟩ := he
        rw [← he1, ← he2]
        refine ⟨rfl, rfl, ?_, rfl⟩
        rw [lookupA_insertA_self]
        rfl

/-- Witness for C6 on the trace mount-then-open: the single issued handle is 1,
bounded by the bumped counter. -/
theorem c6_shared_handle_counter_witness :
    ([(S3Filesystem.new [] [] 0).nextHandle] : List Nat).Nodup ∧
    (∀ a ∈ ([(S3Filesystem.new [] [] 0).nextHandle] : List Nat),
      1 ≤ a ∧ a < ((S3Filesystem.new [] [] 0).openFile).1.nextHandle) := by
  have h := c6_shared_handle_counter ((S3Filesystem.new [] [] 0).openFile).1
    ([(S3Filesystem.new [] [] 0).nextHandle] ++ [])
    (ReachableT.step (ReachableT.mount [] [] 0) (Step.doOpen _ _ _ rfl))
  exact ⟨h.2.1, h.2.2.1⟩

/-- C1 counterexample: the claim that every directory's live entry set always
contains `.` and `..` fails after one opendir on the root with an empty
listing: the reachable state's root entry set is the published empty map, which
contains neither `.` nor `..`. -/
theorem c1_dot_entries_counterexample :
    ∃ st m, Reachable st ∧ lookupA st.dirEntries ROOT_INODE = some m ∧
      lookupS m ['.'] = none ∧ lookupS m ['.', '.'] = none := by
  refine ⟨((S3Filesystem.new [] [] 0).opendir 1 ROOT_INODE (Except.ok [])).1, [],
    ?_, ?_, rfl, rfl⟩
  · exact ⟨issuedHandles (OpendirReply.opened 1) ++ [],
      ReachableT.step (ReachableT.mount [] [] 0)
        (Step.doOpendir _ 1 ROOT_INODE (Except.ok []) _ _ rfl)⟩
  · decide

/-- C1 amended: at mount the root's entry set contains `.` and `..`, each
mapping to the root itself; but the entry set that opendir publishes as a
directory's replacement consists solely of the stripped child names of the
listing (so it contains `.` or `..` only if the listing itself produced such a
name). -/
theorem c1_entry_sets_amended :
    (∀ (b k : Str) (sz : Nat), ∃ m,
      lookupA (S3Filesystem.new b k sz).dirEntries ROOT_INODE = some m ∧
      lookupS m ['.'] = some ROOT_INODE ∧ lookupS m ['.', '.'] = some ROOT_INODE) ∧
    (∀ (st : S3Filesystem) (fuel parent : Nat) (children : List ChildEntry)
        (st' : S3Filesystem) (fh : Nat),
      st.opendir fuel parent (Except.ok children) = (st', OpendirReply.opened fh) →
      ∃ pfx m, st.path_from_root fuel parent = some pfx ∧
        lookupA st'.dirEntries parent = some m ∧
        ∀ n i, lookupS m n = some i →
          ∃ t ∈ listingChildren pfx parent st.nextInode children,
            t.2.1 = n ∧ t.1 = i) := by
  constructor
  · intro b k sz
    refine ⟨insertS ['.', '.'] ROOT_INODE (insertS ['.'] ROOT_INODE []), rfl, ?_, ?_⟩
    · decide
    · decide
  · intro st fuel parent children st' fh he
    cases hp : st.path_from_root fuel parent with
    | none =>
      rw [opendir_none_eq _ _ _ _ hp] at he
      simp at he
    | some pfx =>
      rw [opendir_ok_eq _ _ _ pfx children hp] at he
      simp only [Prod.mk.injEq, OpendirReply.opened.injEq] at he
      obtain ⟨he1, _⟩ := he
      refine ⟨pfx,
        (listingChildren pfx parent st.nextInode children).foldl
          (fun m t => insertS t.2.1 t.1 m) [], rfl, ?_, ?_⟩
      · rw [← he1]
        exact lookupA_insertA_self parent _ st.dirEntries
      · intro n i hni
        rcases foldlMap_lookup_cases _ [] n i hni with h0 | hmem
        · simp [lookupS] at h0
        · exact hmem

/-- Witness for C1 amended: one listed file named `a` under the root yields a
published root entry set whose every binding comes from the listing. -/
theorem c1_entry_sets_amended_witness :
    ∃ pfx m,
      (S3Filesystem.new [] [] 0).path_from_root 1 ROOT_INODE = some pfx ∧
      lookupA (((S3Filesystem.new [] [] 0).opendir 1 ROOT_INODE
          (Except.ok [⟨['a'], [], 5, 0⟩])).1).dirEntries ROOT_INODE = some m ∧
      ∀ n i, lookupS m n = some i →
        ∃ t ∈ listingChildren pfx ROOT_INODE (S3Filesystem.new [] [] 0).nextInode
            [⟨['a'], [], 5, 0⟩], t.2.1 = n ∧ t.1 = i :=
  c1_entry_sets_amended.2 (S3Filesystem.new [] [] 0) 1 ROOT_INODE
    [⟨['a'], [], 5, 0⟩]
    ((S3Filesystem.new [] [] 0).opendir 1 ROOT_INODE (Except.ok [⟨['a'], [], 5, 0⟩])).1 1
    (by decide)

/-- C2 (code bug evaluation): on a handle whose snapshot has the two children
`a` (inode 2) and `b` (inode 3), the first readdir attaches offset cookie 3 to
the zeroth entry and 4 to the first; re-invoking readdir with cookie 3 — the
cookie the claim says resumes at index 1 — returns zero entries, silently
dropping the entry `b`. -/
theorem c2_readdir_restart_drops_entries :
    S3Filesystem.readdir
        ((S3Filesystem.new [] [] 0).opendir 1 ROOT_INODE
          (Except.ok [⟨['a'], [], 5, 0⟩, ⟨['b'], [], 7, 0⟩])).1 ROOT_INODE 1 0 =
      ReaddirReply.entries
        [(2, 3, FileType.regularFile, ['a']), (3, 4, FileType.regularFile, ['b'])] ∧
    S3Filesystem.readdir
        ((S3Filesystem.new [] [] 0).opendir 1 ROOT_INODE
          (Except.ok [⟨['a'], [], 5, 0⟩, ⟨['b'], [], 7, 0⟩])).1 ROOT_INODE 1 3 =
      ReaddirReply.entries [] := by
  constructor
  · decide
  · decide
